import Mathlib

/-!
Shallow embedding of the `bof` indexing tool (src/src/bof.rs) and proofs about
its specification claims.

Modelling conventions:
* Filesystem paths (`PathBuf`) are lists of components (`FsPath := List String`);
  `path.parent()` is `List.dropLast`.
* `HashMap` is modelled as an association list with insert-overwrites semantics
  (`alInsert`); `HashMap::entry(k).or_default().push(v)` is `alPush`.
* The SHA-256 hash from the external `sha2` crate is abstracted as a function
  parameter `hash : String → String`; `generate_key` applies it to the identity
  string exactly as the source does.
* OS stat data (`std::fs::Metadata`) is a flag `isFile` plus the four fields
  the program reads (`ctime`, `mtime`, `size`, `inode`), timestamps as `Nat`.
* The filesystem is a finite tree `FSNode`; file content is `Option String`
  (`none` models `fs::read_to_string` failing, e.g. non-UTF-8 bytes).
* `DirMetaData {data, inode}` and `DirEntry {name, data}` are inlined into the
  `MetaData.Directory` constructor as a `List (String × MetaData)` plus inode.
* The rayon parallel drivers are modelled by their sequential linearisation:
  per-root scheduling order is the argument order, which does not affect the
  properties proved here (root-level error isolation and which store is saved).
-/

abbrev FsPath := List String

/-- Rendering of a path as the string `FsPath::to_string_lossy` produces;
used only as the hash input for directory keys. -/
def pathStr (p : FsPath) : String :=
  p.foldl (fun acc c => acc ++ "/" ++ c) ""

/-- Association-list lookup, modelling `HashMap::get`. -/
def alLookup {α β : Type} [DecidableEq α] : List (α × β) → α → Option β
  | [], _ => none
  | (k, v) :: rest, q => if k = q then some v else alLookup rest q

/-- Association-list insert-or-overwrite, modelling `HashMap::insert`. -/
def alInsert {α β : Type} [DecidableEq α] : List (α × β) → α → β → List (α × β)
  | [], k, v => [(k, v)]
  | (k0, v0) :: rest, k, v =>
    if k0 = k then (k, v) :: rest else (k0, v0) :: alInsert rest k v

/-- Push onto the list stored under a key, modelling
`HashMap::entry(key).or_default().push(v)`. -/
def alPush {α β : Type} [DecidableEq α] : List (α × List β) → α → β → List (α × List β)
  | [], k, v => [(k, [v])]
  | (k0, l) :: rest, k, v =>
    if k0 = k then (k0, l ++ [v]) :: rest else (k0, l) :: alPush rest k v

/-- List stored under a key in an inverse-table style map (empty when absent). -/
def invLookup {α β : Type} [DecidableEq α] (m : List (α × List β)) (k : α) : List β :=
  (alLookup m k).getD []

/-- Model of `generate_key`: the SHA-256 hex digest of the identity string,
with the external hash abstracted as the parameter `hash`. -/
def generate_key (hash : String → String) (ident : String) : String :=
  hash ident

/-- Model of `FileMetaData` (bof.rs lines 46-51). -/
structure FileMetaData where
  ctime : Nat
  mtime : Nat
  size : Nat
  inode : Nat
deriving DecidableEq, Repr, Inhabited

/-- Model of `MetaData` (bof.rs lines 40-43) with `DirMetaData`/`DirEntry`
inlined: `Directory data inode` carries the named children list and inode. -/
inductive MetaData where
  | File (f : FileMetaData)
  | Directory (data : List (String × MetaData)) (inode : Nat)

instance : Inhabited MetaData := ⟨MetaData.Directory [] 0⟩

/-- Model of `BOFEntry` (bof.rs lines 33-37). -/
structure BOFEntry where
  key : String
  path : FsPath
  metadata : MetaData

instance : Inhabited BOFEntry := ⟨⟨"", [], MetaData.Directory [] 0⟩⟩

/-- Model of `BOFIndex` (bof.rs lines 27-30): forward map and inverse table. -/
structure BOFIndex where
  entries : List (FsPath × BOFEntry)
  inverse_table : List (String × List FsPath)

/-- Model of `BOFIndex::new`. -/
def BOFIndex.new : BOFIndex := ⟨[], []⟩

/-- Model of OS stat data as consumed by the program: `Metadata::is_file`
plus the fields read by `From<&Metadata> for FileMetaData` and `ino()`. -/
structure OsMetadata where
  isFile : Bool
  fileMeta : FileMetaData
deriving DecidableEq, Repr

/-- Model of `BOFIndex::add_entry` (bof.rs lines 84-118): a file inserts a
forward entry and appends the parent directory under the key in the inverse
table; a directory only returns a `Directory` record (`dir_entries.unwrap()`
is modelled by `getD []`; every call site passes `some` for directories). -/
def BOFIndex.add_entry (st : BOFIndex) (path : FsPath) (key : String)
    (metadata : OsMetadata) (dir_entries : Option (List (String × MetaData))) :
    BOFIndex × MetaData :=
  let parent_dir := path.dropLast
  if metadata.isFile then
    (⟨alInsert st.entries path ⟨key, path, .File metadata.fileMeta⟩,
      alPush st.inverse_table key parent_dir⟩,
     .File metadata.fileMeta)
  else
    (st, .Directory (dir_entries.getD []) metadata.fileMeta.inode)

/-- Model of `BOFIndex::add_entry_meta` (bof.rs lines 120-155): like
`add_entry` but dispatching on an already-built `MetaData` value. -/
def BOFIndex.add_entry_meta (st : BOFIndex) (path : FsPath) (key : String)
    (metadata : MetaData) (dir_entries : Option (List (String × MetaData))) :
    BOFIndex × MetaData :=
  let parent_dir := path.dropLast
  match metadata with
  | .File f =>
    (⟨alInsert st.entries path ⟨key, path, .File f⟩,
      alPush st.inverse_table key parent_dir⟩,
     .File f)
  | .Directory _ inode =>
    (st, .Directory (dir_entries.getD []) inode)

/-- Replacement step of `BOFIndex::update_entry`: rewrite the key and metadata
of the first binding whose entry's `path` field equals the given path. -/
def updFirst (l : List (FsPath × BOFEntry)) (path : FsPath) (key : String)
    (fm : FileMetaData) : List (FsPath × BOFEntry) :=
  match l with
  | [] => []
  | (k, e) :: rest =>
    if e.path = path then (k, ⟨key, e.path, .File fm⟩) :: rest
    else (k, e) :: updFirst rest path key fm

/-- Model of `BOFIndex::update_entry` (bof.rs lines 157-164): find the first
forward entry whose `path` field matches and replace its key and metadata with
the freshly statted file metadata; always returns `File` of that metadata. -/
def BOFIndex.update_entry (st : BOFIndex) (path : FsPath) (key : String)
    (fm : FileMetaData) : BOFIndex × MetaData :=
  (⟨updFirst st.entries path key fm, st.inverse_table⟩, .File fm)

/-- Model of `IntBOFIndex` (bof.rs lines 658-662), the persisted shape:
forward entries as a sequence plus the inverse table. -/
structure IntBOFIndex where
  entries : List BOFEntry
  inverse_table : List (String × List FsPath)

/-- Model of `save_index` (bof.rs lines 664-676) restricted to the value
written: the store's entry sequence (`entries.values()`) and inverse table. -/
def save_index (st : BOFIndex) : IntBOFIndex :=
  ⟨st.entries.map (fun b => b.2), st.inverse_table⟩

/-- Model of `load_indices` (bof.rs lines 678-694): rebuild the path-keyed
forward map from the persisted entry sequence (`collect` into a `HashMap`,
later bindings overwriting earlier ones) and keep the inverse table. -/
def load_indices (x : IntBOFIndex) : BOFIndex :=
  ⟨x.entries.foldl (fun m e => alInsert m e.path e) [], x.inverse_table⟩

/-- Model of an IO error as distinguished by the program: `fs::metadata`
failing on a missing root, or the explicit `NotADirectory`-style
`InvalidInput` error (bof.rs lines 206-211). -/
inductive IOError where
  | notFound
  | notADirectory
deriving DecidableEq, Repr

mutual
/-- Model of a filesystem node: a regular file with its text content
(`none` when `fs::read_to_string` would fail) and stat data, or a directory
with named children and stat data. -/
inductive FSNode where
  | file (content : Option String) (stat : FileMetaData)
  | dir (children : FSEntries) (stat : FileMetaData)

/-- Named children of a directory, in `read_dir` enumeration order. -/
inductive FSEntries where
  | nil
  | cons (name : String) (node : FSNode) (rest : FSEntries)
end

/-- Stat data of a node, as `fs::metadata`/`entry.metadata()` report it. -/
def FSNode.stat : FSNode → FileMetaData
  | .file _ s => s
  | .dir _ s => s

/-- Whether the node is a regular file (`Metadata::is_file`). -/
def FSNode.isFile : FSNode → Bool
  | .file _ _ => true
  | .dir _ _ => false

/-- The `OsMetadata` view of a node's stat result. -/
def FSNode.osMeta (n : FSNode) : OsMetadata :=
  ⟨n.isFile, n.stat⟩

/-- Result of `fs::read_to_string` on a node: the content of a readable
file, `none` for an unreadable file or a directory. -/
def FSNode.readToString : FSNode → Option String
  | .file c _ => c
  | .dir _ _ => none

/-- Child lookup in a directory's entry list. -/
def findChild (es : FSEntries) (name : String) : Option FSNode :=
  match es with
  | .nil => none
  | .cons n node rest => if n = name then some node else findChild rest name

/-- Resolution of a path against the filesystem root, modelling what the OS
does when the program stats or opens a path. -/
def lookupFS (root : FSNode) : FsPath → Option FSNode
  | [] => some root
  | name :: rest =>
    match root with
    | .file _ _ => none
    | .dir children _ =>
      match findChild children name with
      | none => none
      | some c => lookupFS c rest

/-- Model of the ignore configuration (`BOFConfig::ignore_paths`). -/
structure BOFConfig where
  ignore_paths : List FsPath

mutual
/-- Model of `index` (bof.rs lines 204-278) on the directory tree rooted at
`node`, which sits at `path`: fail `NotADirectory` on a file; return an empty
`Directory` record without descending when `path` is ignored; otherwise walk
the children, then call `add_entry` for the directory itself. -/
def index_node (hash : String → String) (cfg : BOFConfig) (path : FsPath)
    (node : FSNode) (st : BOFIndex) : BOFIndex × Except IOError MetaData :=
  match node with
  | .file _ _ => (st, .error .notADirectory)
  | .dir children stat =>
    if path ∈ cfg.ignore_paths then
      (st, .ok (.Directory [] stat.inode))
    else
      let dir_key := generate_key hash (pathStr path)
      let r := index_children hash cfg path children st []
      let r2 := r.1.add_entry path dir_key ⟨false, stat⟩ (some r.2)
      (r2.1, .ok r2.2)
termination_by structural node

/-- The `for_each` loop of `index` (bof.rs lines 234-275) over a directory's
children, threading the store and the accumulated `DirEntry` list. Each
child is handled inline as in the source loop body: skip ignored children;
hash readable files and `add_entry` them; recurse into directories, dropping
the `DirEntry` when the recursive call fails. -/
def index_children (hash : String → String) (cfg : BOFConfig) (path : FsPath)
    (es : FSEntries) (st : BOFIndex) (acc : List (String × MetaData)) :
    BOFIndex × List (String × MetaData) :=
  match es with
  | .nil => (st, acc)
  | .cons name child rest =>
    let cpath := path ++ [name]
    let step :=
      if cpath ∈ cfg.ignore_paths then (st, acc)
      else if child.isFile then
        match child.readToString with
        | none => (st, acc)
        | some c =>
          let key := generate_key hash (c ++ name)
          let r := st.add_entry cpath key child.osMeta none
          (r.1, acc ++ [(name, r.2)])
      else
        match index_node hash cfg cpath child st with
        | (st1, .ok subdir_meta) => (st1, acc ++ [(name, subdir_meta)])
        | (st1, .error _) => (st1, acc)
    index_children hash cfg path rest step.1 step.2
termination_by structural es
end

/-- Model of a top-level `index(&path, ...)` call: resolve the root path,
then walk the tree found there. -/
def index_path (hash : String → String) (cfg : BOFConfig) (fs : FSNode)
    (p : FsPath) (st : BOFIndex) : BOFIndex × Except IOError MetaData :=
  match lookupFS fs p with
  | none => (st, .error .notFound)
  | some n => index_node hash cfg p n st

/-- Model of the sequential branch of `index_directories` (bof.rs lines
401-407): fold `index` over the root paths with `?`-propagation, saving (and
returning) the accumulated store only when every root succeeded. -/
def index_directories_seq (hash : String → String) (cfg : BOFConfig)
    (fs : FSNode) : List FsPath → BOFIndex → Except IOError BOFIndex
  | [], st => .ok st
  | p :: ps, st =>
    match index_path hash cfg fs p st with
    | (st1, .ok _) => index_directories_seq hash cfg fs ps st1
    | (_, .error e) => .error e

/-- Model of the parallel branch of `index_directories` (bof.rs lines
392-400), linearised: every root path is attempted, a per-root error is only
logged, and the shared store is saved unconditionally afterwards. -/
def index_directories_par (hash : String → String) (cfg : BOFConfig)
    (fs : FSNode) (paths : List FsPath) : BOFIndex :=
  paths.foldl (fun st p => (index_path hash cfg fs p st).1) BOFIndex.new

mutual
/-- Model of `update_index` (bof.rs lines 410-503): fail on a file; stop with
an empty `Directory` record on an ignored target; otherwise run the child
loop, then either return the metadata of an existing forward entry whose
`path` field equals the directory path or `add_entry` the directory. -/
def update_node (hash : String → String) (cfg : BOFConfig) (path : FsPath)
    (node : FSNode) (st : BOFIndex) : BOFIndex × Except IOError MetaData :=
  match node with
  | .file _ _ => (st, .error .notADirectory)
  | .dir children stat =>
    if path ∈ cfg.ignore_paths then
      (st, .ok (.Directory [] stat.inode))
    else
      let dir_key := generate_key hash (pathStr path)
      let r := update_children hash cfg path children st []
      match r.1.entries.find? (fun b => b.2.path = path) with
      | some b => (r.1, .ok b.2.metadata)
      | none =>
        let r2 := r.1.add_entry path dir_key ⟨false, stat⟩ (some r.2)
        (r2.1, .ok r2.2)
termination_by structural node

/-- The `for_each` loop of `update_index` (bof.rs lines 440-497) over a
directory's children, each child handled inline as in the source loop body.
Note two faithful quirks of the source: there is no ignore check for
children, and the recursion into a new subdirectory is
`update_index(&path, &mut bof_index.clone(), config)` — it runs on a clone
of the store, so only the returned metadata is kept and the clone's new
entries are discarded. -/
def update_children (hash : String → String) (cfg : BOFConfig) (path : FsPath)
    (es : FSEntries) (st : BOFIndex) (acc : List (String × MetaData)) :
    BOFIndex × List (String × MetaData) :=
  match es with
  | .nil => (st, acc)
  | .cons name child rest =>
    let cpath := path ++ [name]
    let step :=
      match alLookup st.entries cpath with
      | some e =>
        match e.metadata with
        | .Directory _ _ => (st, acc)
        | .File file_meta =>
          if file_meta.mtime ≠ child.stat.mtime then
            match child.readToString with
            | none => (st, acc)
            | some c =>
              let key := generate_key hash (c ++ name)
              let r := st.update_entry cpath key child.stat
              (r.1, acc)
          else (st, acc)
      | none =>
        if child.isFile then
          match child.readToString with
          | none => (st, acc)
          | some c =>
            let key := generate_key hash (c ++ name)
            let r := st.add_entry cpath key child.osMeta none
            (r.1, acc ++ [(name, r.2)])
        else
          match update_node hash cfg cpath child st with
          | (_, .ok subdir_meta) => (st, acc ++ [(name, subdir_meta)])
          | (_, .error _) => (st, acc)
    update_children hash cfg path rest step.1 step.2
termination_by structural es
end

/-- Model of a top-level `update_index(&path, ...)` call: resolve the root
path, then reconcile the tree found there. -/
def update_path (hash : String → String) (cfg : BOFConfig) (fs : FSNode)
    (p : FsPath) (st : BOFIndex) : BOFIndex × Except IOError MetaData :=
  match lookupFS fs p with
  | none => (st, .error .notFound)
  | some n => update_node hash cfg p n st

/-- Model of the sequential branch of `update_directories` (bof.rs lines
648-655): starting from the loaded store, fold `update_index` over the root
paths with `?`-propagation, saving only when every root succeeded. -/
def update_directories_seq (hash : String → String) (cfg : BOFConfig)
    (fs : FSNode) : List FsPath → BOFIndex → Except IOError BOFIndex
  | [], st => .ok st
  | p :: ps, st =>
    match update_path hash cfg fs p st with
    | (st1, .ok _) => update_directories_seq hash cfg fs ps st1
    | (_, .error e) => .error e

/-- Model of the parallel branch of `update_directories` (bof.rs lines
639-647), linearised: each root runs on `Arc::new(Mutex::new(
existing_indices.clone()))` — a fresh clone of the loaded store whose result
is dropped — and the store that gets saved is the loaded one, untouched. -/
def update_directories_par (hash : String → String) (cfg : BOFConfig)
    (fs : FSNode) (paths : List FsPath) (loaded : BOFIndex) : BOFIndex :=
  let _ := paths.map (fun p => update_path hash cfg fs p loaded)
  loaded

/-- Well-formedness of the forward map: every binding's entry records the
path under which it is stored (the `HashMap` key). -/
def EntriesWF (st : BOFIndex) : Prop :=
  ∀ b ∈ st.entries, b.2.path = b.1

instance (st : BOFIndex) : Decidable (EntriesWF st) := by
  unfold EntriesWF; infer_instance

/-- Filesystem for the duplicate-content scenario of the spec: roots `a` and
`b` each contain `f.txt` with content `"hello"`. -/
def fsDup : FSNode :=
  .dir (.cons "a" (.dir (.cons "f.txt" (.file (some "hello") ⟨1, 2, 5, 11⟩) .nil) ⟨1, 2, 0, 10⟩)
    (.cons "b" (.dir (.cons "f.txt" (.file (some "hello") ⟨1, 2, 5, 13⟩) .nil) ⟨1, 2, 0, 12⟩) .nil))
    ⟨0, 0, 0, 1⟩

/-- Filesystem for the reconciler clone-bug input: root `r` contains a
previously unindexed subdirectory `d` holding the readable file `f`. -/
def fsNewSub : FSNode :=
  .dir (.cons "r" (.dir (.cons "d" (.dir (.cons "f"
      (.file (some "x") ⟨1, 2, 1, 20⟩) .nil) ⟨1, 2, 0, 19⟩) .nil)
    ⟨1, 2, 0, 18⟩) .nil) ⟨0, 0, 0, 1⟩

/-- Filesystem for the root-error-isolation input: root `b` is a regular
file (so indexing it fails with `NotADirectory`) while sibling root `g` is a
directory holding the readable file `h.txt`. -/
def fsBadRoot : FSNode :=
  .dir (.cons "b" (.file (some "z") ⟨1, 2, 1, 30⟩)
    (.cons "g" (.dir (.cons "h.txt" (.file (some "hi") ⟨1, 2, 2, 32⟩) .nil)
      ⟨1, 2, 0, 31⟩) .nil)) ⟨0, 0, 0, 1⟩

/-- Filesystem for the ignored-file-child input: root `r` contains the
readable file `g`, whose path is placed in the ignore set. -/
def fsIgn : FSNode :=
  .dir (.cons "r" (.dir (.cons "g" (.file (some "x") ⟨1, 2, 1, 22⟩) .nil)
    ⟨1, 2, 0, 21⟩) .nil) ⟨0, 0, 0, 1⟩

/-- A path lies at or below some ignored path. -/
def underIgnored (cfg : BOFConfig) (q : FsPath) : Prop :=
  ∃ i ∈ cfg.ignore_paths, i <+: q

instance (cfg : BOFConfig) (q : FsPath) : Decidable (underIgnored cfg q) := by
  unfold underIgnored; infer_instance

/-- Frame property used for the ignore guarantee: between two stores, every
lookup at or below an ignored path is unchanged, and the inverse table gains
no occurrence of a parent path at or below an ignored path. -/
def IgnoreFrame (cfg : BOFConfig) (st st2 : BOFIndex) : Prop :=
  (∀ q, underIgnored cfg q → alLookup st2.entries q = alLookup st.entries q) ∧
  (∀ k p, underIgnored cfg p →
    List.count p (invLookup st2.inverse_table k) =
      List.count p (invLookup st.inverse_table k))

/-- Frame property used for the no-directory-entries guarantee: the index
traversal of a directory at `path` changes no forward binding at a path of
length at most `path`'s (in particular not at `path` itself), and every
binding it adds carries `File` metadata. -/
def NewEntriesProp (path : FsPath) (st st2 : BOFIndex) : Prop :=
  (∀ q, q.length ≤ path.length →
    alLookup st2.entries q = alLookup st.entries q) ∧
  (∀ q e, alLookup st2.entries q = some e →
    alLookup st.entries q = some e ∨ ∃ f, e.metadata = MetaData.File f)

/-! ### Helper lemmas about the association-list operations -/

@[simp]
theorem alLookup_alInsert {α β : Type} [DecidableEq α] (m : List (α × β))
    (k q : α) (v : β) :
    alLookup (alInsert m k v) q = if k = q then some v else alLookup m q := by
  induction m with
  | nil => simp [alInsert, alLookup]
  | cons b rest ih =>
    obtain ⟨k0, v0⟩ := b
    by_cases h0 : k0 = k
    · subst h0
      by_cases hq : k0 = q <;> simp [alInsert, alLookup, hq]
    · by_cases hq : k0 = q
      · subst hq
        simp [alInsert, alLookup, h0, Ne.symm h0]
      · simp [alInsert, alLookup, h0, hq, ih]

@[simp]
theorem invLookup_alPush {α β : Type} [DecidableEq α] (m : List (α × List β))
    (k q : α) (v : β) :
    invLookup (alPush m k v) q =
      if k = q then invLookup m q ++ [v] else invLookup m q := by
  induction m with
  | nil =>
    by_cases hq : k = q <;> simp [alPush, invLookup, alLookup, hq]
  | cons b rest ih =>
    obtain ⟨k0, l⟩ := b
    by_cases h0 : k0 = k
    · subst h0
      by_cases hq : k0 = q <;> simp [alPush, invLookup, alLookup, hq]
    · by_cases hq : k0 = q
      · subst hq
        simp [alPush, invLookup, alLookup, h0, Ne.symm h0]
      · simpa [alPush, invLookup, alLookup, h0, hq] using ih

theorem alLookup_path {m : List (FsPath × BOFEntry)}
    (h : ∀ b ∈ m, b.2.path = b.1) {q : FsPath} {e : BOFEntry}
    (hl : alLookup m q = some e) : e.path = q := by
  induction m with
  | nil => simp [alLookup] at hl
  | cons b rest ih =>
    obtain ⟨k0, v0⟩ := b
    by_cases hq : k0 = q
    · subst hq
      simp [alLookup] at hl
      subst hl
      exact h _ (List.mem_cons_self _ _)
    · simp [alLookup, hq] at hl
      exact ih (fun b hb => h b (List.mem_cons_of_mem _ hb)) hl

theorem updFirst_skip {l : List (FsPath × BOFEntry)} {p : FsPath}
    (h : ∀ b ∈ l, b.2.path ≠ p) (k : String) (fm : FileMetaData) :
    updFirst l p k fm = l := by
  induction l with
  | nil => rfl
  | cons b rest ih =>
    obtain ⟨k0, e⟩ := b
    have h0 : e.path ≠ p := h (k0, e) (List.mem_cons_self _ _)
    simp [updFirst, h0]
    exact ih (fun b hb => h b (List.mem_cons_of_mem _ hb))

theorem alLookup_updFirst {l : List (FsPath × BOFEntry)}
    (hwf : ∀ b ∈ l, b.2.path = b.1) (p q : FsPath) (k : String)
    (fm : FileMetaData) :
    alLookup (updFirst l p k fm) q =
      if p = q then
        (alLookup l q).map (fun e => ⟨k, e.path, .File fm⟩)
      else alLookup l q := by
  induction l with
  | nil => by_cases h : p = q <;> simp [updFirst, alLookup, h]
  | cons b rest ih =>
    obtain ⟨k0, e⟩ := b
    have hpe : e.path = k0 := hwf (k0, e) (List.mem_cons_self _ _)
    have ih' := ih (fun b hb => hwf b (List.mem_cons_of_mem _ hb))
    subst hpe
    by_cases hp : e.path = p
    · by_cases hq : e.path = q
      · have hpq : p = q := hp.symm.trans hq
        simp [updFirst, hp, alLookup, hq, hpq]
      · have hpq : ¬ p = q := fun h => hq (hp.trans h)
        simp [updFirst, hp, alLookup, hq, hpq]
    · by_cases hq : e.path = q
      · have hpq : ¬ p = q := fun h => hp (hq.trans h.symm)
        simp [updFirst, hp, alLookup, hq, hpq, Ne.symm hpq]
      · simp [updFirst, hp, alLookup, hq, ih']

theorem alLookup_eq_none {α β : Type} [DecidableEq α] {m : List (α × β)} {q : α} :
    alLookup m q = none ↔ ∀ b ∈ m, b.1 ≠ q := by
  induction m with
  | nil => simp [alLookup]
  | cons b rest ih =>
    obtain ⟨k0, v0⟩ := b
    by_cases hq : k0 = q
    · subst hq
      simp [alLookup]
    · simp [alLookup, hq, ih]

theorem wfList_alInsert {l : List (FsPath × BOFEntry)}
    (h : ∀ b ∈ l, b.2.path = b.1) {p : FsPath} {e : BOFEntry} (he : e.path = p) :
    ∀ b ∈ alInsert l p e, b.2.path = b.1 := by
  induction l with
  | nil =>
    intro b hb
    simp [alInsert] at hb
    subst hb
    exact he
  | cons b0 rest ih =>
    obtain ⟨k0, v0⟩ := b0
    intro b hb
    by_cases h0 : k0 = p
    · subst h0
      simp [alInsert] at hb
      rcases hb with hb | hb
      · subst hb; exact he
      · exact h b (List.mem_cons_of_mem _ hb)
    · simp [alInsert, h0] at hb
      rcases hb with hb | hb
      · subst hb; exact h _ (List.mem_cons_self _ _)
      · exact ih (fun b hb => h b (List.mem_cons_of_mem _ hb)) b hb

theorem wfList_updFirst {l : List (FsPath × BOFEntry)}
    (h : ∀ b ∈ l, b.2.path = b.1) (p : FsPath) (k : String) (fm : FileMetaData) :
    ∀ b ∈ updFirst l p k fm, b.2.path = b.1 := by
  induction l with
  | nil => intro b hb; simp [updFirst] at hb
  | cons b0 rest ih =>
    obtain ⟨k0, e⟩ := b0
    have h0 : e.path = k0 := h _ (List.mem_cons_self _ _)
    intro b hb
    by_cases hp : e.path = p
    · simp [updFirst, hp] at hb
      rcases hb with hb | hb
      · subst hb; exact hp.symm.trans h0
      · exact h b (List.mem_cons_of_mem _ hb)
    · simp [updFirst, hp] at hb
      rcases hb with hb | hb
      · subst hb; exact h0
      · exact ih (fun b hb => h b (List.mem_cons_of_mem _ hb)) b hb

theorem wfList_build {l : List BOFEntry} {acc : List (FsPath × BOFEntry)}
    (h : ∀ b ∈ acc, b.2.path = b.1) :
    ∀ b ∈ l.foldl (fun m e => alInsert m e.path e) acc, b.2.path = b.1 := by
  induction l generalizing acc with
  | nil => exact h
  | cons e rest ih => exact ih (wfList_alInsert h rfl)

/-- C10: every reachable `BOFIndex` satisfies the invariant that each forward
binding's entry stores the path it is keyed under: the empty store satisfies
it, `add_entry`, `add_entry_meta` and `update_entry` preserve it, and
`load_indices` establishes it unconditionally on whatever it reads back. -/
theorem C10_path_key_invariant (st : BOFIndex) (p p2 p3 : FsPath)
    (k k2 k3 : String) (osm : OsMetadata) (md : MetaData)
    (d d2 : Option (List (String × MetaData))) (fm : FileMetaData)
    (x : IntBOFIndex) (hwf : EntriesWF st) :
    EntriesWF BOFIndex.new ∧
    EntriesWF (st.add_entry p k osm d).1 ∧
    EntriesWF (st.add_entry_meta p2 k2 md d2).1 ∧
    EntriesWF (st.update_entry p3 k3 fm).1 ∧
    EntriesWF (load_indices x) := by
  refine ⟨?_, ?_, ?_, ?_, ?_⟩
  · intro b hb; simp [BOFIndex.new] at hb
  · by_cases hf : osm.isFile
    · simpa [BOFIndex.add_entry, hf, EntriesWF] using
        @wfList_alInsert st.entries hwf p ⟨k, p, .File osm.fileMeta⟩ rfl
    · simpa [BOFIndex.add_entry, hf] using hwf
  · match md with
    | .File f =>
      simpa [BOFIndex.add_entry_meta, EntriesWF] using
        @wfList_alInsert st.entries hwf p2 ⟨k2, p2, .File f⟩ rfl
    | .Directory _ _ => simpa [BOFIndex.add_entry_meta] using hwf
  · simpa [BOFIndex.update_entry, EntriesWF] using wfList_updFirst hwf p3 k3 fm
  · simpa [load_indices, EntriesWF] using
      wfList_build (by intro b hb; simp at hb)

/-- C10 witness: a concrete store satisfying the invariant, instantiating the
preservation theorem. -/
theorem C10_witness :
    EntriesWF ⟨[(["a"], ⟨"k0", ["a"], .File ⟨0, 0, 0, 0⟩⟩)], []⟩ ∧
    (EntriesWF BOFIndex.new ∧
     EntriesWF ((⟨[(["a"], ⟨"k0", ["a"], .File ⟨0, 0, 0, 0⟩⟩)], []⟩ :
        BOFIndex).add_entry ["b"] "k1" ⟨true, ⟨0, 0, 0, 0⟩⟩ none).1 ∧
     EntriesWF ((⟨[(["a"], ⟨"k0", ["a"], .File ⟨0, 0, 0, 0⟩⟩)], []⟩ :
        BOFIndex).add_entry_meta ["c"] "k2" (.File ⟨0, 0, 0, 0⟩) none).1 ∧
     EntriesWF ((⟨[(["a"], ⟨"k0", ["a"], .File ⟨0, 0, 0, 0⟩⟩)], []⟩ :
        BOFIndex).update_entry ["a"] "k3" ⟨0, 1, 0, 0⟩).1 ∧
     EntriesWF (load_indices ⟨[⟨"k4", ["d"], .File ⟨0, 0, 0, 0⟩⟩], []⟩)) :=
  ⟨by decide,
   C10_path_key_invariant _ ["b"] ["c"] ["a"] "k1" "k2" "k3" ⟨true, ⟨0, 0, 0, 0⟩⟩
     (.File ⟨0, 0, 0, 0⟩) none none ⟨0, 1, 0, 0⟩
     ⟨[⟨"k4", ["d"], .File ⟨0, 0, 0, 0⟩⟩], []⟩ (by decide)⟩

/-- C9: `update_entry` touches at most the key and metadata of the single
forward entry whose path equals the given path; on a miss the store is left
completely unchanged; in all cases every other forward entry and the whole
inverse table are unmodified. -/
theorem C9_update_entry_frame (st : BOFIndex) (p : FsPath) (k : String)
    (fm : FileMetaData) (hwf : EntriesWF st) :
    (alLookup st.entries p = none → (st.update_entry p k fm).1 = st) ∧
    (∀ q, q ≠ p →
      alLookup (st.update_entry p k fm).1.entries q = alLookup st.entries q) ∧
    (∀ e, alLookup st.entries p = some e →
      alLookup (st.update_entry p k fm).1.entries p = some ⟨k, p, .File fm⟩) ∧
    (st.update_entry p k fm).1.inverse_table = st.inverse_table := by
  refine ⟨?_, ?_, ?_, rfl⟩
  · intro hnone
    have hmiss : ∀ b ∈ st.entries, b.2.path ≠ p := by
      intro b hb
      rw [hwf b hb]
      exact alLookup_eq_none.mp hnone b hb
    show (⟨updFirst st.entries p k fm, st.inverse_table⟩ : BOFIndex) = st
    rw [updFirst_skip hmiss]
  · intro q hq
    show alLookup (updFirst st.entries p k fm) q = alLookup st.entries q
    rw [alLookup_updFirst hwf, if_neg (fun h => hq h.symm)]
  · intro e he
    show alLookup (updFirst st.entries p k fm) p = some ⟨k, p, .File fm⟩
    rw [alLookup_updFirst hwf, if_pos rfl, he]
    simp [alLookup_path hwf he]

/-- C9 witness: the frame theorem instantiated at a concrete two-entry store. -/
theorem C9_witness :
    EntriesWF ⟨[(["a"], ⟨"k0", ["a"], .File ⟨0, 0, 0, 0⟩⟩),
                (["b"], ⟨"k1", ["b"], .File ⟨0, 0, 0, 1⟩⟩)], []⟩ ∧
    ((alLookup (⟨[(["a"], ⟨"k0", ["a"], .File ⟨0, 0, 0, 0⟩⟩),
                  (["b"], ⟨"k1", ["b"], .File ⟨0, 0, 0, 1⟩⟩)], []⟩ :
        BOFIndex).entries ["a"] = none →
      ((⟨[(["a"], ⟨"k0", ["a"], .File ⟨0, 0, 0, 0⟩⟩),
          (["b"], ⟨"k1", ["b"], .File ⟨0, 0, 0, 1⟩⟩)], []⟩ :
        BOFIndex).update_entry ["a"] "k9" ⟨0, 7, 0, 0⟩).1 =
        ⟨[(["a"], ⟨"k0", ["a"], .File ⟨0, 0, 0, 0⟩⟩),
          (["b"], ⟨"k1", ["b"], .File ⟨0, 0, 0, 1⟩⟩)], []⟩) ∧
     (∀ q, q ≠ ["a"] →
      alLookup ((⟨[(["a"], ⟨"k0", ["a"], .File ⟨0, 0, 0, 0⟩⟩),
                   (["b"], ⟨"k1", ["b"], .File ⟨0, 0, 0, 1⟩⟩)], []⟩ :
        BOFIndex).update_entry ["a"] "k9" ⟨0, 7, 0, 0⟩).1.entries q =
      alLookup (⟨[(["a"], ⟨"k0", ["a"], .File ⟨0, 0, 0, 0⟩⟩),
                  (["b"], ⟨"k1", ["b"], .File ⟨0, 0, 0, 1⟩⟩)], []⟩ :
        BOFIndex).entries q) ∧
     (∀ e, alLookup (⟨[(["a"], ⟨"k0", ["a"], .File ⟨0, 0, 0, 0⟩⟩),
                       (["b"], ⟨"k1", ["b"], .File ⟨0, 0, 0, 1⟩⟩)], []⟩ :
        BOFIndex).entries ["a"] = some e →
      alLookup ((⟨[(["a"], ⟨"k0", ["a"], .File ⟨0, 0, 0, 0⟩⟩),
                   (["b"], ⟨"k1", ["b"], .File ⟨0, 0, 0, 1⟩⟩)], []⟩ :
        BOFIndex).update_entry ["a"] "k9" ⟨0, 7, 0, 0⟩).1.entries ["a"] =
        some ⟨"k9", ["a"], .File ⟨0, 7, 0, 0⟩⟩) ∧
     ((⟨[(["a"], ⟨"k0", ["a"], .File ⟨0, 0, 0, 0⟩⟩),
         (["b"], ⟨"k1", ["b"], .File ⟨0, 0, 0, 1⟩⟩)], []⟩ :
        BOFIndex).update_entry ["a"] "k9" ⟨0, 7, 0, 0⟩).1.inverse_table = []) :=
  ⟨by decide, C9_update_entry_frame _ ["a"] "k9" ⟨0, 7, 0, 0⟩ (by decide)⟩

/-! ### Round trip of save and load (C7) -/

theorem alLookup_map_pair_none {l : List BOFEntry} {q : FsPath}
    (h : ∀ e ∈ l, e.path ≠ q) :
    alLookup (l.map (fun e => (e.path, e))) q = none := by
  induction l with
  | nil => rfl
  | cons e rest ih =>
    simp only [List.map_cons, alLookup]
    rw [if_neg (h e (List.mem_cons_self _ _))]
    exact ih (fun e he => h e (List.mem_cons_of_mem _ he))

theorem alLookup_build_nodup {l : List BOFEntry}
    (hnd : (l.map (fun e => e.path)).Nodup) (acc : List (FsPath × BOFEntry))
    (q : FsPath) :
    alLookup (l.foldl (fun m e => alInsert m e.path e) acc) q =
      match alLookup (l.map (fun e => (e.path, e))) q with
      | some e => some e
      | none => alLookup acc q := by
  induction l generalizing acc with
  | nil => rfl
  | cons e rest ih =>
    have hnotin : e.path ∉ rest.map (fun e => e.path) :=
      (List.nodup_cons.mp hnd).1
    have hnd' : (rest.map (fun e => e.path)).Nodup :=
      (List.nodup_cons.mp hnd).2
    simp only [List.foldl_cons, List.map_cons]
    rw [ih hnd' (alInsert acc e.path e)]
    by_cases hq : e.path = q
    · subst hq
      have hrest : alLookup (rest.map (fun e => (e.path, e))) e.path = none := by
        refine alLookup_map_pair_none (fun x hx hxq => hnotin ?_)
        rw [← hxq]
        exact List.mem_map_of_mem _ hx
      rw [hrest]
      simp [alLookup]
    · simp only [alLookup, hq, if_neg hq]
      cases alLookup (rest.map (fun e => (e.path, e))) q with
      | some e2 => simp
      | none => simp [alLookup_alInsert, hq]

theorem alLookup_map_pair_eq {l : List (FsPath × BOFEntry)}
    (hwf : ∀ b ∈ l, b.2.path = b.1) (q : FsPath) :
    alLookup (l.map (fun b => (b.2.path, b.2))) q = alLookup l q := by
  induction l with
  | nil => rfl
  | cons b rest ih =>
    obtain ⟨k0, e⟩ := b
    have h0 : e.path = k0 := hwf _ (List.mem_cons_self _ _)
    simp only [List.map_cons, alLookup, h0]
    by_cases hq : k0 = q <;>
      simp [hq, ih (fun b hb => hwf b (List.mem_cons_of_mem _ hb))]

/-- C7: persisting a store and loading it back reproduces an equivalent
store — every path that had a forward entry maps to the same entry after the
round trip (in particular same key and metadata), and the inverse table is
reproduced verbatim. The hypotheses are the `HashMap` representation
invariants of the source type: bindings record their own key path and map
keys are duplicate-free. -/
theorem C7_load_save_round_trip (st : BOFIndex) (q : FsPath)
    (hwf : EntriesWF st) (hnd : (st.entries.map (fun b => b.1)).Nodup) :
    alLookup (load_indices (save_index st)).entries q = alLookup st.entries q ∧
    (load_indices (save_index st)).inverse_table = st.inverse_table := by
  refine ⟨?_, rfl⟩
  show alLookup ((st.entries.map (fun b => b.2)).foldl
      (fun m e => alInsert m e.path e) []) q = alLookup st.entries q
  have hpaths : (st.entries.map (fun b => b.2)).map (fun e => e.path) =
      st.entries.map (fun b => b.1) := by
    rw [List.map_map]
    exact List.map_congr_left (fun b hb => hwf b hb)
  rw [alLookup_build_nodup (hpaths ▸ hnd) [] q, List.map_map]
  show (match alLookup (st.entries.map (fun b => (b.2.path, b.2))) q with
        | some e => some e
        | none => alLookup ([] : List (FsPath × BOFEntry)) q) =
      alLookup st.entries q
  rw [alLookup_map_pair_eq hwf q]
  cases alLookup st.entries q <;> rfl

/-- C7 witness: the round trip at a concrete two-entry store with a
non-trivial inverse table. -/
theorem C7_witness :
    EntriesWF ⟨[(["a", "f"], ⟨"kf", ["a", "f"], .File ⟨0, 1, 2, 3⟩⟩),
                (["b", "g"], ⟨"kg", ["b", "g"], .File ⟨4, 5, 6, 7⟩⟩)],
               [("kf", [["a"]]), ("kg", [["b"]])]⟩ ∧
    ((⟨[(["a", "f"], ⟨"kf", ["a", "f"], .File ⟨0, 1, 2, 3⟩⟩),
        (["b", "g"], ⟨"kg", ["b", "g"], .File ⟨4, 5, 6, 7⟩⟩)],
       [("kf", [["a"]]), ("kg", [["b"]])]⟩ : BOFIndex).entries.map
        (fun b => b.1)).Nodup ∧
    (alLookup (load_indices (save_index
        ⟨[(["a", "f"], ⟨"kf", ["a", "f"], .File ⟨0, 1, 2, 3⟩⟩),
          (["b", "g"], ⟨"kg", ["b", "g"], .File ⟨4, 5, 6, 7⟩⟩)],
         [("kf", [["a"]]), ("kg", [["b"]])]⟩)).entries ["a", "f"] =
      alLookup (⟨[(["a", "f"], ⟨"kf", ["a", "f"], .File ⟨0, 1, 2, 3⟩⟩),
          (["b", "g"], ⟨"kg", ["b", "g"], .File ⟨4, 5, 6, 7⟩⟩)],
         [("kf", [["a"]]), ("kg", [["b"]])]⟩ : BOFIndex).entries ["a", "f"] ∧
     (load_indices (save_index
        ⟨[(["a", "f"], ⟨"kf", ["a", "f"], .File ⟨0, 1, 2, 3⟩⟩),
          (["b", "g"], ⟨"kg", ["b", "g"], .File ⟨4, 5, 6, 7⟩⟩)],
         [("kf", [["a"]]), ("kg", [["b"]])]⟩)).inverse_table =
      [("kf", [["a"]]), ("kg", [["b"]])]) :=
  ⟨by decide, by decide,
   C7_load_save_round_trip _ ["a", "f"] (by decide) (by decide)⟩

/-- C8: hashing a file via `add_entry` appends the file's parent-directory
path to the inverse-table list under the computed key, with no deduplication:
the general append law, the spec's two-root scenario (both `a` and `b` end up
listed under the key of `"hellof.txt"`), and a repeated pass over the same
root listing the same parent twice. -/
theorem C8_inverse_table_append (st : BOFIndex) (p : FsPath) (k : String)
    (fm : FileMetaData) (hash : String → String) :
    invLookup ((st.add_entry p k ⟨true, fm⟩ none).1).inverse_table k =
      invLookup st.inverse_table k ++ [p.dropLast] ∧
    Except.map (fun st => invLookup st.inverse_table
        (generate_key hash "hellof.txt"))
      (index_directories_seq hash ⟨[]⟩ fsDup [["a"], ["b"]] BOFIndex.new) =
      .ok [["a"], ["b"]] ∧
    Except.map (fun st => invLookup st.inverse_table
        (generate_key hash "hellof.txt"))
      (index_directories_seq hash ⟨[]⟩ fsDup [["a"], ["a"]] BOFIndex.new) =
      .ok [["a"], ["a"]] := by
  have happ : ("hello" ++ "f.txt" : String) = "hellof.txt" := rfl
  refine ⟨by simp [BOFIndex.add_entry], ?_, ?_⟩ <;>
    simp [index_directories_seq, index_path, lookupFS, findChild, fsDup,
      index_node, index_children, BOFIndex.add_entry, BOFIndex.new,
      generate_key, FSNode.isFile, FSNode.readToString, FSNode.osMeta,
      FSNode.stat, invLookup, alLookup, alInsert, alPush, Except.map, happ]

/-- C4: the content key of every regular file indexed is the hash of its
content concatenated with its base name — stated for the child step of the
traversal loop (run on the one-child list) on a readable, non-ignored file —
key generation is deterministic, and the spec scenario holds: indexing root
`a` of `fsDup` produces a forward entry at `a/f.txt` keyed `hash
"hellof.txt"` and a `Directory` record for `a` with exactly one child, named
`f.txt`. -/
theorem C4_content_key (hash : String → String) (cfg : BOFConfig)
    (path : FsPath) (name c : String) (cstat : FileMetaData) (st : BOFIndex)
    (acc : List (String × MetaData))
    (h : path ++ [name] ∉ cfg.ignore_paths) :
    alLookup ((index_children hash cfg path
        (.cons name (.file (some c) cstat) .nil) st acc).1).entries
        (path ++ [name]) =
      some ⟨generate_key hash (c ++ name), path ++ [name], .File cstat⟩ ∧
    (∀ s t : String, s = t → generate_key hash s = generate_key hash t) ∧
    (index_path hash ⟨[]⟩ fsDup ["a"] BOFIndex.new).2 =
      .ok (.Directory [("f.txt", .File ⟨1, 2, 5, 11⟩)] 10) ∧
    alLookup (index_path hash ⟨[]⟩ fsDup ["a"] BOFIndex.new).1.entries
        ["a", "f.txt"] =
      some ⟨generate_key hash "hellof.txt", ["a", "f.txt"], .File ⟨1, 2, 5, 11⟩⟩ := by
  have happ : ("hello" ++ "f.txt" : String) = "hellof.txt" := rfl
  refine ⟨?_, fun s t hst => by rw [hst], ?_, ?_⟩
  · simp [index_children, h, FSNode.isFile, FSNode.readToString, FSNode.osMeta,
      FSNode.stat, BOFIndex.add_entry]
  · simp [index_path, lookupFS, findChild, fsDup, index_node, index_children,
      BOFIndex.add_entry, BOFIndex.new, generate_key, FSNode.isFile,
      FSNode.readToString, FSNode.osMeta, FSNode.stat, alLookup, alInsert,
      alPush, happ]
  · simp [index_path, lookupFS, findChild, fsDup, index_node, index_children,
      BOFIndex.add_entry, BOFIndex.new, generate_key, FSNode.isFile,
      FSNode.readToString, FSNode.osMeta, FSNode.stat, alLookup, alInsert,
      alPush, happ]

/-- C4 witness: the key law instantiated at a concrete file child with empty
ignore set, plus the concrete scenario conclusions. -/
theorem C4_witness :
    (["a"] ++ ["f.txt"] ∉ (⟨[]⟩ : BOFConfig).ignore_paths) ∧
    (alLookup ((index_children (fun s => s) ⟨[]⟩ ["a"]
        (.cons "f.txt" (.file (some "hello") ⟨1, 2, 5, 11⟩) .nil)
        BOFIndex.new []).1).entries (["a"] ++ ["f.txt"]) =
      some ⟨generate_key (fun s => s) ("hello" ++ "f.txt"), ["a"] ++ ["f.txt"],
        .File ⟨1, 2, 5, 11⟩⟩ ∧
     (∀ s t : String, s = t →
        generate_key (fun s => s) s = generate_key (fun s => s) t) ∧
     (index_path (fun s => s) ⟨[]⟩ fsDup ["a"] BOFIndex.new).2 =
       .ok (.Directory [("f.txt", .File ⟨1, 2, 5, 11⟩)] 10) ∧
     alLookup (index_path (fun s => s) ⟨[]⟩ fsDup ["a"] BOFIndex.new).1.entries
         ["a", "f.txt"] =
       some ⟨generate_key (fun s => s) "hellof.txt", ["a", "f.txt"],
         .File ⟨1, 2, 5, 11⟩⟩) :=
  ⟨by decide,
   C4_content_key (fun s => s) ⟨[]⟩ ["a"] "f.txt" "hello" ⟨1, 2, 5, 11⟩
     BOFIndex.new [] (by decide)⟩

theorem IgnoreFrame_rfl {cfg : BOFConfig} {st : BOFIndex} : IgnoreFrame cfg st st :=
  ⟨fun _ _ => rfl, fun _ _ _ => rfl⟩

theorem IgnoreFrame_trans {cfg : BOFConfig} {st1 st2 st3 : BOFIndex}
    (h12 : IgnoreFrame cfg st1 st2) (h23 : IgnoreFrame cfg st2 st3) :
    IgnoreFrame cfg st1 st3 :=
  ⟨fun q hq => (h23.1 q hq).trans (h12.1 q hq),
   fun k p hp => (h23.2 k p hp).trans (h12.2 k p hp)⟩

theorem notUnderIgnored_concat {cfg : BOFConfig} {path : FsPath} {name : String}
    (h : ¬ underIgnored cfg path) (hcp : path ++ [name] ∉ cfg.ignore_paths) :
    ¬ underIgnored cfg (path ++ [name]) := by
  rintro ⟨i, hi, hpre⟩
  rcases List.prefix_concat_iff.mp hpre with he | hpre2
  · exact hcp (he ▸ hi)
  · exact h ⟨i, hi, hpre2⟩

theorem underIgnored_hyp_concat {cfg : BOFConfig} {path : FsPath}
    {name : String} (h : ¬ underIgnored cfg path) :
    ∀ i ∈ cfg.ignore_paths, i <+: path ++ [name] → i = path ++ [name] := by
  intro i hi hpre
  rcases List.prefix_concat_iff.mp hpre with he | hpre2
  · exact he
  · exact absurd ⟨i, hi, hpre2⟩ h

theorem count_append_singleton_ne {p a : FsPath} (l : List FsPath)
    (hne : p ≠ a) : List.count p (l ++ [a]) = List.count p l := by
  simp [List.count_append, List.count_cons, hne]

mutual
theorem ignFrame_index_node (hash : String → String) (cfg : BOFConfig)
    (path : FsPath) (node : FSNode) (st : BOFIndex)
    (h : ∀ i ∈ cfg.ignore_paths, i <+: path → i = path) :
    IgnoreFrame cfg st (index_node hash cfg path node st).1 := by
  cases node with
  | file c fstat => simp only [index_node]; exact IgnoreFrame_rfl
  | dir children stat =>
    by_cases hig : path ∈ cfg.ignore_paths
    · simp only [index_node, if_pos hig]; exact IgnoreFrame_rfl
    · have hnu : ¬ underIgnored cfg path := by
        rintro ⟨i, hi, hpre⟩
        exact hig ((h i hi hpre) ▸ hi)
      rcases hch : index_children hash cfg path children st [] with ⟨st1, acc1⟩
      have hfr := ignFrame_index_children hash cfg path children st [] hnu
      rw [hch] at hfr
      simp only [index_node, if_neg hig, hch]
      simpa [BOFIndex.add_entry] using hfr
termination_by sizeOf node
decreasing_by all_goals simp_wf <;> omega

theorem ignFrame_index_children (hash : String → String) (cfg : BOFConfig)
    (path : FsPath) (es : FSEntries) (st : BOFIndex)
    (acc : List (String × MetaData)) (h : ¬ underIgnored cfg path) :
    IgnoreFrame cfg st (index_children hash cfg path es st acc).1 := by
  cases es with
  | nil => simp only [index_children]; exact IgnoreFrame_rfl
  | cons name child rest =>
    by_cases hig : (path ++ [name]) ∈ cfg.ignore_paths
    · simp only [index_children, hig, ite_true]
      exact ignFrame_index_children hash cfg path rest st acc h
    · cases child with
      | file content cstat =>
        cases content with
        | none =>
          simp only [index_children, hig, ite_false, FSNode.isFile,
            FSNode.readToString, if_true]
          exact ignFrame_index_children hash cfg path rest st acc h
        | some c =>
          simp only [index_children, hig, ite_false, FSNode.isFile,
            FSNode.readToString, FSNode.osMeta, FSNode.stat,
            BOFIndex.add_entry, if_true]
          refine IgnoreFrame_trans ?_
            (ignFrame_index_children hash cfg path rest _ _ h)
          constructor
          · intro q hq
            have hne : ¬ path ++ [name] = q :=
              fun he => notUnderIgnored_concat h hig (he ▸ hq)
            simp [alLookup_alInsert, hne]
          · intro k p hp
            have hne : p ≠ path := fun he => h (he ▸ hp)
            simp only [invLookup_alPush, List.dropLast_concat]
            split
            · exact count_append_singleton_ne _ hne
            · rfl
      | dir dchildren dstat =>
        rcases hrec : index_node hash cfg (path ++ [name])
            (.dir dchildren dstat) st with ⟨st1, r⟩
        have h1 := ignFrame_index_node hash cfg (path ++ [name])
          (.dir dchildren dstat) st (underIgnored_hyp_concat h)
        rw [hrec] at h1
        cases r with
        | ok m =>
          simp only [index_children, hig, ite_false, FSNode.isFile, hrec]
          exact IgnoreFrame_trans h1
            (ignFrame_index_children hash cfg path rest _ _ h)
        | error e =>
          simp only [index_children, hig, ite_false, FSNode.isFile, hrec]
          exact IgnoreFrame_trans h1
            (ignFrame_index_children hash cfg path rest _ _ h)
termination_by sizeOf es
decreasing_by all_goals simp_wf <;> omega
end

theorem NewEntriesProp_rfl {path : FsPath} {st : BOFIndex} :
    NewEntriesProp path st st :=
  ⟨fun _ _ => rfl, fun _ _ h => Or.inl h⟩

theorem NewEntriesProp_trans {path : FsPath} {st1 st2 st3 : BOFIndex}
    (h12 : NewEntriesProp path st1 st2) (h23 : NewEntriesProp path st2 st3) :
    NewEntriesProp path st1 st3 := by
  refine ⟨fun q hq => (h23.1 q hq).trans (h12.1 q hq), fun q e he => ?_⟩
  rcases h23.2 q e he with h2 | h2
  · exact h12.2 q e h2
  · exact Or.inr h2

theorem NewEntriesProp_weaken {path : FsPath} {name : String}
    {st st2 : BOFIndex} (h : NewEntriesProp (path ++ [name]) st st2) :
    NewEntriesProp path st st2 := by
  refine ⟨fun q hq => h.1 q ?_, h.2⟩
  simp only [List.length_append, List.length_cons, List.length_nil]
  omega

theorem ne_concat_of_length_le {q path : FsPath} {name : String}
    (hq : q.length ≤ path.length) : ¬ path ++ [name] = q := by
  intro he
  rw [← he] at hq
  simp only [List.length_append, List.length_cons, List.length_nil] at hq
  omega

mutual
theorem newEnt_index_node (hash : String → String) (cfg : BOFConfig)
    (path : FsPath) (node : FSNode) (st : BOFIndex) :
    NewEntriesProp path st (index_node hash cfg path node st).1 := by
  cases node with
  | file c fstat => simp only [index_node]; exact NewEntriesProp_rfl
  | dir children stat =>
    by_cases hig : path ∈ cfg.ignore_paths
    · simp only [index_node, if_pos hig]; exact NewEntriesProp_rfl
    · rcases hch : index_children hash cfg path children st [] with ⟨st1, acc1⟩
      have hfr := newEnt_index_children hash cfg path children st []
      rw [hch] at hfr
      simp only [index_node, if_neg hig, hch]
      simpa [BOFIndex.add_entry] using hfr
termination_by sizeOf node
decreasing_by all_goals simp_wf <;> omega

theorem newEnt_index_children (hash : String → String) (cfg : BOFConfig)
    (path : FsPath) (es : FSEntries) (st : BOFIndex)
    (acc : List (String × MetaData)) :
    NewEntriesProp path st (index_children hash cfg path es st acc).1 := by
  cases es with
  | nil => simp only [index_children]; exact NewEntriesProp_rfl
  | cons name child rest =>
    by_cases hig : (path ++ [name]) ∈ cfg.ignore_paths
    · simp only [index_children, hig, ite_true]
      exact newEnt_index_children hash cfg path rest st acc
    · cases child with
      | file content cstat =>
        cases content with
        | none =>
          simp only [index_children, hig, ite_false, FSNode.isFile,
            FSNode.readToString, if_true]
          exact newEnt_index_children hash cfg path rest st acc
        | some c =>
          simp only [index_children, hig, ite_false, FSNode.isFile,
            FSNode.readToString, FSNode.osMeta, FSNode.stat,
            BOFIndex.add_entry, if_true]
          refine NewEntriesProp_trans ?_
            (newEnt_index_children hash cfg path rest _ _)
          constructor
          · intro q hq
            simp [alLookup_alInsert, ne_concat_of_length_le hq]
          · intro q e he
            rw [alLookup_alInsert] at he
            by_cases hpq : path ++ [name] = q
            · rw [if_pos hpq] at he
              cases he
              exact Or.inr ⟨cstat, rfl⟩
            · rw [if_neg hpq] at he
              exact Or.inl he
      | dir dchildren dstat =>
        rcases hrec : index_node hash cfg (path ++ [name])
            (.dir dchildren dstat) st with ⟨st1, r⟩
        have h1 := newEnt_index_node hash cfg (path ++ [name])
          (.dir dchildren dstat) st
        rw [hrec] at h1
        cases r with
        | ok m =>
          simp only [index_children, hig, ite_false, FSNode.isFile, hrec]
          exact NewEntriesProp_trans (NewEntriesProp_weaken h1)
            (newEnt_index_children hash cfg path rest _ _)
        | error e =>
          simp only [index_children, hig, ite_false, FSNode.isFile, hrec]
          exact NewEntriesProp_trans (NewEntriesProp_weaken h1)
            (newEnt_index_children hash cfg path rest _ _)
termination_by sizeOf es
decreasing_by all_goals simp_wf <;> omega
end

/-- C1: evaluation of the reconciler at the failing input. Updating root `r`
of `fsNewSub` from an empty loaded store leaves no forward entry for the file
`r/d/f` beneath the new subdirectory `r/d` — the recursion ran on a discarded
clone of the store — whereas a fresh index session over the same tree
produces the entry the spec requires (key = hash of content ++ name). -/
theorem C1_clone_discards_subdir_entries :
    Except.map (fun st => alLookup st.entries ["r", "d", "f"])
      (update_directories_seq (fun s => s) ⟨[]⟩ fsNewSub [["r"]] BOFIndex.new) =
      .ok none ∧
    Except.map (fun st => alLookup st.entries ["r", "d", "f"])
      (index_directories_seq (fun s => s) ⟨[]⟩ fsNewSub [["r"]] BOFIndex.new) =
      .ok (some ⟨"xf", ["r", "d", "f"], .File ⟨1, 2, 1, 20⟩⟩) :=
  ⟨rfl, rfl⟩

/-- C2 counterexample: a full index session on root `a` (which contains
`f.txt`) creates no forward-style record for the scan root itself — the
lookup at `a` misses and the persisted entry sequence holds only the file
path — refuting the claimed root-call exception. -/
theorem C2_counterexample :
    Except.map (fun st => (alLookup st.entries ["a"],
        (save_index st).entries.map (fun e => e.path)))
      (index_directories_seq (fun s => s) ⟨[]⟩ fsDup [["a"]] BOFIndex.new) =
      .ok (none, [["a", "f.txt"]]) := rfl

/-- C2 amended: `add_entry` on a directory target never inserts a forward
entry — the scan root included. The directory call returns the `Directory`
record and leaves the store untouched; an index session starting at a root
with no prior entry ends with still no entry at the root path; and every
entry an index session produces carries `File` metadata. -/
theorem C2_no_directory_forward_entry (hash : String → String)
    (cfg : BOFConfig) (st : BOFIndex) (p : FsPath) (k : String)
    (fm : FileMetaData) (d : Option (List (String × MetaData)))
    (path : FsPath) (node : FSNode) (st2 : BOFIndex)
    (hroot : alLookup st2.entries path = none)
    (hfiles : ∀ q e, alLookup st2.entries q = some e →
      ∃ f, e.metadata = MetaData.File f) :
    st.add_entry p k ⟨false, fm⟩ d = (st, .Directory (d.getD []) fm.inode) ∧
    alLookup (index_node hash cfg path node st2).1.entries path = none ∧
    (∀ q e, alLookup (index_node hash cfg path node st2).1.entries q = some e →
      ∃ f, e.metadata = MetaData.File f) := by
  refine ⟨by simp [BOFIndex.add_entry], ?_, ?_⟩
  · rw [(newEnt_index_node hash cfg path node st2).1 path le_rfl]
    exact hroot
  · intro q e he
    rcases (newEnt_index_node hash cfg path node st2).2 q e he with h | h
    · exact hfiles q e h
    · exact h

/-- C2 witness: the amended theorem instantiated at the `fsDup` root node
with an empty starting store. -/
theorem C2_witness :
    alLookup BOFIndex.new.entries ["a"] = none ∧
    (∀ q e, alLookup BOFIndex.new.entries q = some e →
      ∃ f, e.metadata = MetaData.File f) ∧
    ((BOFIndex.new.add_entry ["x"] "kx" ⟨false, ⟨0, 0, 0, 9⟩⟩ (some [])) =
      (BOFIndex.new, .Directory [] 9) ∧
     alLookup (index_node (fun s => s) ⟨[]⟩ ["a"]
        (.dir (.cons "f.txt" (.file (some "hello") ⟨1, 2, 5, 11⟩) .nil)
          ⟨1, 2, 0, 10⟩) BOFIndex.new).1.entries ["a"] = none ∧
     (∀ q e, alLookup (index_node (fun s => s) ⟨[]⟩ ["a"]
        (.dir (.cons "f.txt" (.file (some "hello") ⟨1, 2, 5, 11⟩) .nil)
          ⟨1, 2, 0, 10⟩) BOFIndex.new).1.entries q = some e →
      ∃ f, e.metadata = MetaData.File f)) :=
  ⟨rfl, fun q e he => absurd he (by simp [BOFIndex.new, alLookup]),
   C2_no_directory_forward_entry (fun s => s) ⟨[]⟩ BOFIndex.new ["x"] "kx"
     ⟨0, 0, 0, 9⟩ (some []) ["a"]
     (.dir (.cons "f.txt" (.file (some "hello") ⟨1, 2, 5, 11⟩) .nil)
       ⟨1, 2, 0, 10⟩) BOFIndex.new rfl
     (fun q e he => absurd he (by simp [BOFIndex.new, alLookup]))⟩

/-- C5 counterexample: with two roots where the first is a regular file, the
sequential index session propagates the `NotADirectory` error through `?`,
aborting the whole invocation — the sibling root `g` is never attempted and
nothing is saved — refuting the claimed isolation in sequential mode. -/
theorem C5_counterexample :
    index_directories_seq (fun s => s) ⟨[]⟩ fsBadRoot [["b"], ["g"]]
      BOFIndex.new = .error .notADirectory := rfl

/-- C5 amended: a fatal root error is isolated only in parallel mode. In
sequential mode (index and update alike) the first failing root aborts the
whole invocation via error propagation, so later roots are not attempted and
no index is saved. The linearised parallel index session attempts every root
and saves the accumulated store — on the two-root input with a bad first
root, the sibling's file is still indexed — while the parallel update
session saves the loaded store unchanged (per-root work happens on clones). -/
theorem C5_root_error_isolation (hash : String → String) (cfg : BOFConfig)
    (fs : FSNode) (p : FsPath) (ps : List FsPath) (st st1 st2 : BOFIndex)
    (e e2 : IOError)
    (h1 : index_path hash cfg fs p st = (st1, .error e))
    (h2 : update_path hash cfg fs p st = (st2, .error e2)) :
    index_directories_seq hash cfg fs (p :: ps) st = .error e ∧
    update_directories_seq hash cfg fs (p :: ps) st = .error e2 ∧
    (∀ hash2 : String → String,
      alLookup (index_directories_par hash2 ⟨[]⟩ fsBadRoot
          [["b"], ["g"]]).entries ["g", "h.txt"] =
        some ⟨generate_key hash2 "hih.txt", ["g", "h.txt"],
          .File ⟨1, 2, 2, 32⟩⟩) ∧
    (∀ loaded paths2, update_directories_par hash cfg fs paths2 loaded =
      loaded) := by
  refine ⟨by simp [index_directories_seq, h1],
    by simp [update_directories_seq, h2], ?_, fun _ _ => rfl⟩
  intro hash2
  have happ : ("hi" ++ "h.txt" : String) = "hih.txt" := rfl
  simp [index_directories_par, index_path, index_node, index_children,
    lookupFS, findChild, fsBadRoot, BOFIndex.add_entry,
    BOFIndex.new, generate_key, FSNode.isFile, FSNode.readToString,
    FSNode.osMeta, FSNode.stat, alLookup, alInsert, alPush, happ]

/-- C5 witness: the amended theorem at the concrete two-root input whose
first root is a regular file. -/
theorem C5_witness :
    index_path (fun s => s) ⟨[]⟩ fsBadRoot ["b"] BOFIndex.new =
      (BOFIndex.new, .error .notADirectory) ∧
    update_path (fun s => s) ⟨[]⟩ fsBadRoot ["b"] BOFIndex.new =
      (BOFIndex.new, .error .notADirectory) ∧
    (index_directories_seq (fun s => s) ⟨[]⟩ fsBadRoot (["b"] :: [["g"]])
        BOFIndex.new = .error .notADirectory ∧
     update_directories_seq (fun s => s) ⟨[]⟩ fsBadRoot (["b"] :: [["g"]])
        BOFIndex.new = .error .notADirectory ∧
     (∀ hash2 : String → String,
       alLookup (index_directories_par hash2 ⟨[]⟩ fsBadRoot
           [["b"], ["g"]]).entries ["g", "h.txt"] =
         some ⟨generate_key hash2 "hih.txt", ["g", "h.txt"],
           .File ⟨1, 2, 2, 32⟩⟩) ∧
     (∀ loaded paths2, update_directories_par (fun s => s) ⟨[]⟩ fsBadRoot
        paths2 loaded = loaded)) :=
  ⟨rfl, rfl,
   C5_root_error_isolation (fun s => s) ⟨[]⟩ fsBadRoot ["b"] [["g"]]
     BOFIndex.new BOFIndex.new BOFIndex.new .notADirectory .notADirectory
     rfl rfl⟩

/-- C6 counterexample: with `r/g` in the ignore set and `g` a new readable
file under the updated root `r`, the update session still creates a forward
entry and an inverse-table row for the ignored path `r/g` — the reconciler's
child loop never consults the ignore set — refuting the claimed zero-entry
guarantee for the update session. -/
theorem C6_counterexample :
    Except.map (fun st => (alLookup st.entries ["r", "g"],
        invLookup st.inverse_table "xg"))
      (update_directories_seq (fun s => s) ⟨[["r", "g"]]⟩ fsIgn [["r"]]
        BOFIndex.new) =
      .ok (some ⟨"xg", ["r", "g"], .File ⟨1, 2, 1, 22⟩⟩, [["r"]]) := rfl

/-- C6 amended: when the index or update traversal is invoked on an ignored
directory target it stops — empty-children `Directory` record with the real
inode, store untouched. For the index session the guarantee extends below:
lookups at or beneath any ignored path are unchanged and the inverse table
gains no row whose parent lies at or beneath one (provided no ignored path
lies strictly above the traversal root). The update session gives only the
target-level guarantee: its child loop does not consult the ignore set, so a
new ignored file child still receives a forward entry (see the
counterexample). -/
theorem C6_ignore_guarantee (hash : String → String) (cfg : BOFConfig)
    (path1 : FsPath) (children : FSEntries) (stat : FileMetaData)
    (st1 : BOFIndex) (path2 : FsPath) (node : FSNode) (st2 : BOFIndex)
    (h1 : path1 ∈ cfg.ignore_paths)
    (h2 : ∀ i ∈ cfg.ignore_paths, i <+: path2 → i = path2) :
    index_node hash cfg path1 (.dir children stat) st1 =
      (st1, .ok (.Directory [] stat.inode)) ∧
    update_node hash cfg path1 (.dir children stat) st1 =
      (st1, .ok (.Directory [] stat.inode)) ∧
    (∀ q, underIgnored cfg q →
      alLookup (index_node hash cfg path2 node st2).1.entries q =
        alLookup st2.entries q) ∧
    (∀ k p, underIgnored cfg p →
      List.count p
          (invLookup (index_node hash cfg path2 node st2).1.inverse_table k) =
        List.count p (invLookup st2.inverse_table k)) :=
  ⟨by simp [index_node, h1], by simp [update_node, h1],
   (ignFrame_index_node hash cfg path2 node st2 h2).1,
   (ignFrame_index_node hash cfg path2 node st2 h2).2⟩

/-- C6 witness: the guarantee at the ignored directory `r/g`-configured
store, with the index traversal run on the root `r` of `fsIgn`. -/
theorem C6_witness :
    (["r", "g"] ∈ (⟨[["r", "g"]]⟩ : BOFConfig).ignore_paths) ∧
    (∀ i ∈ (⟨[["r", "g"]]⟩ : BOFConfig).ignore_paths,
      i <+: ["r"] → i = ["r"]) ∧
    (index_node (fun s => s) ⟨[["r", "g"]]⟩ ["r", "g"] (.dir .nil ⟨1, 2, 0, 40⟩)
        BOFIndex.new = (BOFIndex.new, .ok (.Directory [] 40)) ∧
     update_node (fun s => s) ⟨[["r", "g"]]⟩ ["r", "g"]
        (.dir .nil ⟨1, 2, 0, 40⟩) BOFIndex.new =
        (BOFIndex.new, .ok (.Directory [] 40)) ∧
     (∀ q, underIgnored ⟨[["r", "g"]]⟩ q →
       alLookup (index_node (fun s => s) ⟨[["r", "g"]]⟩ ["r"]
          (.dir (.cons "g" (.file (some "x") ⟨1, 2, 1, 22⟩) .nil)
            ⟨1, 2, 0, 21⟩) BOFIndex.new).1.entries q =
         alLookup BOFIndex.new.entries q) ∧
     (∀ k p, underIgnored ⟨[["r", "g"]]⟩ p →
       List.count p (invLookup (index_node (fun s => s) ⟨[["r", "g"]]⟩ ["r"]
          (.dir (.cons "g" (.file (some "x") ⟨1, 2, 1, 22⟩) .nil)
            ⟨1, 2, 0, 21⟩) BOFIndex.new).1.inverse_table k) =
         List.count p (invLookup BOFIndex.new.inverse_table k))) :=
  ⟨by decide, by decide,
   C6_ignore_guarantee (fun s => s) ⟨[["r", "g"]]⟩ ["r", "g"] .nil
     ⟨1, 2, 0, 40⟩ BOFIndex.new ["r"]
     (.dir (.cons "g" (.file (some "x") ⟨1, 2, 1, 22⟩) .nil) ⟨1, 2, 0, 21⟩)
     BOFIndex.new (by decide) (by decide)⟩

/-- C3: reconciliation of a child whose path has a stored file entry, stated
for the reconciler's child loop run on the one-child list. When the stored
modification time equals the current one the step returns the store
byte-identical (so every forward entry, the matched one included, is
unchanged); when it differs and the child is a readable file, exactly that
entry is replaced via `update_entry` with the key recomputed from current
content and the fresh stat metadata, every other forward entry and the whole
inverse table being unchanged. -/
theorem C3_update_child_entry (hash : String → String) (cfg : BOFConfig)
    (path : FsPath) (name : String) (child : FSNode) (st : BOFIndex)
    (acc : List (String × MetaData)) (e : BOFEntry) (sfm : FileMetaData)
    (hwf : EntriesWF st)
    (hlook : alLookup st.entries (path ++ [name]) = some e)
    (hmeta : e.metadata = .File sfm) :
    (sfm.mtime = child.stat.mtime →
      update_children hash cfg path (.cons name child .nil) st acc =
        (st, acc)) ∧
    (∀ c cfm, child = .file (some c) cfm → sfm.mtime ≠ cfm.mtime →
      alLookup (update_children hash cfg path (.cons name child .nil)
          st acc).1.entries (path ++ [name]) =
        some ⟨generate_key hash (c ++ name), path ++ [name], .File cfm⟩ ∧
      (∀ q, q ≠ path ++ [name] →
        alLookup (update_children hash cfg path (.cons name child .nil)
            st acc).1.entries q = alLookup st.entries q) ∧
      (update_children hash cfg path (.cons name child .nil)
          st acc).1.inverse_table = st.inverse_table ∧
      (update_children hash cfg path (.cons name child .nil)
          st acc).2 = acc) := by
  constructor
  · intro hmt
    simp [update_children, hlook, hmeta, hmt]
  · rintro c cfm rfl hmt
    have hstep : update_children hash cfg path
        (.cons name (.file (some c) cfm) .nil) st acc =
        ((st.update_entry (path ++ [name])
          (generate_key hash (c ++ name)) cfm).1, acc) := by
      simp [update_children, hlook, hmeta, FSNode.stat, FSNode.readToString,
        hmt, BOFIndex.update_entry]
    rw [hstep]
    have hpath : e.path = path ++ [name] := alLookup_path hwf hlook
    refine ⟨?_, ?_, rfl, rfl⟩
    · show alLookup (updFirst st.entries (path ++ [name])
        (generate_key hash (c ++ name)) cfm) (path ++ [name]) = _
      rw [alLookup_updFirst hwf, if_pos rfl, hlook]
      simp [hpath]
    · intro q hq
      show alLookup (updFirst st.entries (path ++ [name])
        (generate_key hash (c ++ name)) cfm) q = alLookup st.entries q
      rw [alLookup_updFirst hwf, if_neg (fun h => hq h.symm)]

/-- C3 witness: the reconciliation step at a concrete store holding entries
for `r/g` and `r/h`, with an unchanged-mtime run and a changed-mtime run. -/
theorem C3_witness :
    EntriesWF ⟨[(["r", "g"], ⟨"k0", ["r", "g"], .File ⟨1, 2, 1, 22⟩⟩),
                (["r", "h"], ⟨"k1", ["r", "h"], .File ⟨1, 3, 1, 23⟩⟩)], []⟩ ∧
    alLookup (⟨[(["r", "g"], ⟨"k0", ["r", "g"], .File ⟨1, 2, 1, 22⟩⟩),
                (["r", "h"], ⟨"k1", ["r", "h"], .File ⟨1, 3, 1, 23⟩⟩)], []⟩ :
        BOFIndex).entries (["r"] ++ ["g"]) =
      some ⟨"k0", ["r", "g"], .File ⟨1, 2, 1, 22⟩⟩ ∧
    (BOFEntry.metadata ⟨"k0", ["r", "g"], .File ⟨1, 2, 1, 22⟩⟩ =
      .File ⟨1, 2, 1, 22⟩) ∧
    (((⟨1, 2, 1, 22⟩ : FileMetaData).mtime =
        (FSNode.file (some "y") ⟨1, 9, 1, 22⟩).stat.mtime →
      update_children (fun s => s) ⟨[]⟩ ["r"]
          (.cons "g" (.file (some "y") ⟨1, 9, 1, 22⟩) .nil)
          ⟨[(["r", "g"], ⟨"k0", ["r", "g"], .File ⟨1, 2, 1, 22⟩⟩),
            (["r", "h"], ⟨"k1", ["r", "h"], .File ⟨1, 3, 1, 23⟩⟩)], []⟩ [] =
        (⟨[(["r", "g"], ⟨"k0", ["r", "g"], .File ⟨1, 2, 1, 22⟩⟩),
           (["r", "h"], ⟨"k1", ["r", "h"], .File ⟨1, 3, 1, 23⟩⟩)], []⟩, [])) ∧
     (∀ c cfm, (FSNode.file (some "y") ⟨1, 9, 1, 22⟩ : FSNode) =
          .file (some c) cfm →
        (⟨1, 2, 1, 22⟩ : FileMetaData).mtime ≠ cfm.mtime →
        alLookup (update_children (fun s => s) ⟨[]⟩ ["r"]
            (.cons "g" (.file (some "y") ⟨1, 9, 1, 22⟩) .nil)
            ⟨[(["r", "g"], ⟨"k0", ["r", "g"], .File ⟨1, 2, 1, 22⟩⟩),
              (["r", "h"], ⟨"k1", ["r", "h"], .File ⟨1, 3, 1, 23⟩⟩)], []⟩
            []).1.entries (["r"] ++ ["g"]) =
          some ⟨generate_key (fun s => s) (c ++ "g"), ["r"] ++ ["g"],
            .File cfm⟩ ∧
        (∀ q, q ≠ ["r"] ++ ["g"] →
          alLookup (update_children (fun s => s) ⟨[]⟩ ["r"]
              (.cons "g" (.file (some "y") ⟨1, 9, 1, 22⟩) .nil)
              ⟨[(["r", "g"], ⟨"k0", ["r", "g"], .File ⟨1, 2, 1, 22⟩⟩),
                (["r", "h"], ⟨"k1", ["r", "h"], .File ⟨1, 3, 1, 23⟩⟩)], []⟩
              []).1.entries q =
            alLookup (⟨[(["r", "g"], ⟨"k0", ["r", "g"], .File ⟨1, 2, 1, 22⟩⟩),
                (["r", "h"], ⟨"k1", ["r", "h"], .File ⟨1, 3, 1, 23⟩⟩)], []⟩ :
              BOFIndex).entries q) ∧
        (update_children (fun s => s) ⟨[]⟩ ["r"]
            (.cons "g" (.file (some "y") ⟨1, 9, 1, 22⟩) .nil)
            ⟨[(["r", "g"], ⟨"k0", ["r", "g"], .File ⟨1, 2, 1, 22⟩⟩),
              (["r", "h"], ⟨"k1", ["r", "h"], .File ⟨1, 3, 1, 23⟩⟩)], []⟩
            []).1.inverse_table = [] ∧
        (update_children (fun s => s) ⟨[]⟩ ["r"]
            (.cons "g" (.file (some "y") ⟨1, 9, 1, 22⟩) .nil)
            ⟨[(["r", "g"], ⟨"k0", ["r", "g"], .File ⟨1, 2, 1, 22⟩⟩),
              (["r", "h"], ⟨"k1", ["r", "h"], .File ⟨1, 3, 1, 23⟩⟩)], []⟩
            []).2 = [])) :=
  ⟨by decide, rfl, rfl,
   C3_update_child_entry (fun s => s) ⟨[]⟩ ["r"] "g"
     (.file (some "y") ⟨1, 9, 1, 22⟩)
     ⟨[(["r", "g"], ⟨"k0", ["r", "g"], .File ⟨1, 2, 1, 22⟩⟩),
       (["r", "h"], ⟨"k1", ["r", "h"], .File ⟨1, 3, 1, 23⟩⟩)], []⟩ []
     ⟨"k0", ["r", "g"], .File ⟨1, 2, 1, 22⟩⟩ ⟨1, 2, 1, 22⟩
     (by decide) rfl rfl⟩
